import Mathlib

/-!
Shallow embedding of `get_original_image_url` from `src/main.py` (lines 15-69)
of the 4strader scraper, together with proofs about its behaviour.

Modelling conventions:
* Python `None` / strings are `Option String`; Python truthiness of a string
  argument (`if not image_url`) treats `None` and `""` alike.
* Python `\d` and `[a-zA-Z]` are modelled as ASCII digits / letters, and
  `str.split()` whitespace as the ASCII whitespace characters.
* `int(...)` raising `ValueError` is modelled as `Option`; the `try/except`
  around the srcset loop becomes the `Option` result of `parseSrcset`
  (`none` = an exception was raised, all partial candidates discarded).
* The two regexes are compiled by hand into deterministic right-to-left
  scanners over the character list; both regexes are anchored at the end of
  the string (`$`), and `^(.*)` is greedy, so the suffix they strip is the
  rightmost one.  Theorems `cleanMatch_sound` / `cleanMatch_complete` below
  justify the hand compilation against the declarative pattern.
-/

/-- ASCII decimal digit, the model of the regex class `\d`. -/
def isDigitCh (c : Char) : Bool := '0' ≤ c && c ≤ '9'

/-- ASCII letter, the model of the regex class `[a-zA-Z]`. -/
def isAlphaCh (c : Char) : Bool := ('a' ≤ c && c ≤ 'z') || ('A' ≤ c && c ≤ 'Z')

/-- Whitespace recognised by Python `str.split()` (ASCII part). -/
def isPySpace (c : Char) : Bool :=
  c = ' ' || c = '\t' || c = '\n' || c = '\r' || c = '\x0b' || c = '\x0c'

/-- Python truthiness of an optional string: `None` and `""` are falsy. -/
def truthy : Option String → Bool
  | none => false
  | some s => if s = "" then false else true

/-- `s.split(',')`: split at every comma, keeping empty pieces. -/
def splitCommaAux : List Char → List Char → List String
  | [], acc => [String.mk acc.reverse]
  | c :: rest, acc =>
    if c = ',' then String.mk acc.reverse :: splitCommaAux rest []
    else splitCommaAux rest (c :: acc)

def splitComma (s : String) : List String := splitCommaAux s.data []

/-- `s.strip().split()`: split on whitespace runs, dropping empty pieces. -/
def wsSplitAux : List Char → List Char → List String
  | [], acc => if acc.isEmpty then [] else [String.mk acc.reverse]
  | c :: rest, acc =>
    if isPySpace c then
      if acc.isEmpty then wsSplitAux rest []
      else String.mk acc.reverse :: wsSplitAux rest []
    else wsSplitAux rest (c :: acc)

def pySplitWs (s : String) : List String := wsSplitAux s.data []

/-- Digit-and-underscore tail of a Python integer literal (`int("1_0") = 10`);
`none` models `ValueError`. -/
def digitsUndAux : List Char → Nat → Option Nat
  | [], acc => some acc
  | '_' :: c :: rest, acc =>
    if isDigitCh c then digitsUndAux rest (acc * 10 + (c.toNat - 48)) else none
  | ['_'], _ => none
  | c :: rest, acc =>
    if isDigitCh c then digitsUndAux rest (acc * 10 + (c.toNat - 48)) else none

def pyIntDigits : List Char → Option Nat
  | [] => none
  | c :: rest => if isDigitCh c then digitsUndAux rest (c.toNat - 48) else none

/-- Python `int(s)` on a string: strips whitespace, allows a sign, requires a
non-empty digit sequence (with `_` separators); `none` models `ValueError`. -/
def pyInt? (s : String) : Option Int :=
  match (s.data.dropWhile isPySpace).reverse.dropWhile isPySpace |>.reverse with
  | '-' :: rest => (pyIntDigits rest).map (fun n => -(n : Int))
  | '+' :: rest => (pyIntDigits rest).map (fun n => (n : Int))
  | cs => (pyIntDigits cs).map (fun n => (n : Int))

/-- One srcset candidate, the dict `{'url': ..., 'width': ...}`. -/
structure Candidate where
  url : String
  width : Int
  deriving DecidableEq, Repr

/-- `width_descriptor.endswith('w')`. -/
def lastIsW (wd : String) : Bool :=
  match wd.data.getLast? with
  | some c => c = 'w'
  | none => false

/-- `width_descriptor[:-1]`. -/
def dropLastChar (wd : String) : String := String.mk wd.data.dropLast

/-- The srcset parsing loop of `get_original_image_url`: candidates are
accumulated left to right; an `int` failure raises, which discards the whole
accumulated list (`none`). Entries with ≠ 1,2 parts, or with a 2-part
descriptor not ending in `w`, are skipped silently. -/
def parseEntries : List String → List Candidate → Option (List Candidate)
  | [], acc => some acc
  | entry :: rest, acc =>
    match pySplitWs entry with
    | [url, wd] =>
      if lastIsW wd then
        match pyInt? (dropLastChar wd) with
        | some n => parseEntries rest (acc ++ [⟨url, n⟩])
        | none => none
      else parseEntries rest acc
    | [url] => parseEntries rest (acc ++ [⟨url, 0⟩])
    | _ => parseEntries rest acc

def parseSrcset (s : String) : Option (List Candidate) :=
  parseEntries (splitComma s) []

/-- Strip `\d+x\d+-` (reading right to left) from a reversed character list:
the shared tail of both regexes.  Returns the (reversed) base name. -/
def stripResizeRev (r : List Char) : Option (List Char) :=
  let d2 := r.takeWhile isDigitCh
  let r4 := r.dropWhile isDigitCh
  if d2.isEmpty then none else
  match r4 with
  | c :: r5 =>
    if c = 'x' then
      let d1 := r5.takeWhile isDigitCh
      let r6 := r5.dropWhile isDigitCh
      if d1.isEmpty then none else
      match r6 with
      | c2 :: base => if c2 = '-' then some base else none
      | [] => none
    else none
  | [] => none

/-- `re.search(r'-\d+x\d+\.[a-zA-Z]{3,4}$', url)` as a Boolean: does the URL
end in a plain resize suffix (3-4 letter extension, no `@Nx` part)? -/
def matchResizeEnd (url : String) : Bool :=
  let r := url.data.reverse
  let ext := r.takeWhile isAlphaCh
  let r1 := r.dropWhile isAlphaCh
  if 3 ≤ ext.length ∧ ext.length ≤ 4 then
    match r1 with
    | c :: r2 => if c = '.' then (stripResizeRev r2).isSome else false
    | [] => false
  else false

/-- The optional `(@\dx)?` group of the cleaning regex, read right to left
just after the dot: consume `x`, a digit, `@` when present. -/
def stripDpiRev (r2 : List Char) : Option (List Char) :=
  match r2 with
  | a :: b :: c :: rest =>
    if a = 'x' ∧ c = '@' then
      if isDigitCh b then some rest else none
    else some r2
  | _ => some r2

/-- After the extension: expect `.`, then the optional DPI group, then the
resize suffix (all still right to left); return the reversed base name. -/
def cleanTail : List Char → Option (List Char)
  | c :: r2 =>
    if c = '.' then
      match stripDpiRev r2 with
      | none => none
      | some r3 => stripResizeRev r3
    else none
  | [] => none

/-- `re.match(r'^(.*)(-\d+x\d+(@\dx)?)\.([a-zA-Z]{3,5})$', url)`:
`some (base_name, extension)` when the URL carries a trailing resize / DPI
suffix, `none` otherwise. -/
def cleanMatch (url : String) : Option (String × String) :=
  let r := url.data.reverse
  let ext := r.takeWhile isAlphaCh
  if 3 ≤ ext.length ∧ ext.length ≤ 5 then
    match cleanTail (r.dropWhile isAlphaCh) with
    | none => none
    | some base => some (String.mk base.reverse, String.mk ext.reverse)
  else none

/-- Step 3 of `get_original_image_url`: strip the suffix when the cleaning
regex matches, otherwise return the URL unchanged. -/
def cleanSuffix (url : String) : String :=
  match cleanMatch url with
  | some (b, e) => b ++ "." ++ e
  | none => url

/-- Python `max(l, key=width)` folded over a non-empty list: on ties the
first-encountered maximum wins. -/
def pyMaxBy : Candidate → List Candidate → Candidate
  | best, [] => best
  | best, c :: rest => pyMaxBy (if best.width < c.width then c else best) rest

def pyMax? : List Candidate → Option Candidate
  | [] => none
  | c :: rest => some (pyMaxBy c rest)

/-- The srcset branch: parse, partition by `matchResizeEnd`, pick the best
candidate (`none` when parsing raised or produced no candidate). -/
def srcsetBest (s : String) : Option String :=
  match parseSrcset s with
  | none => none
  | some candidates =>
    if candidates.isEmpty then none
    else
      let nonResized := candidates.filter (fun c => !matchResizeEnd c.url)
      if !nonResized.isEmpty then (pyMax? nonResized).map Candidate.url
      else (pyMax? candidates).map Candidate.url

/-- `best_url` as produced by the srcset branch (step 1): `none` when there is
no srcset, it is empty, parsing raised, or no candidate was parsed. -/
def srcsetWorking : Option String → Option String
  | none => none
  | some s => if s = "" then none else srcsetBest s

/-- Steps 2 and 3 applied to the chosen working URL. -/
def finishUrl : Option String → Option String
  | none => none
  | some u => if u = "" then none else some (cleanSuffix u)

/-- The Python function `get_original_image_url(image_url, srcset_str)`. -/
def get_original_image_url (image_url srcset_str : Option String) : Option String :=
  if !truthy image_url && !truthy srcset_str then none
  else
    finishUrl
      (if !truthy (srcsetWorking srcset_str) then image_url
       else srcsetWorking srcset_str)

/-! ## Generic list and string helper lemmas -/

theorem takeWhile_app {p : Char → Bool} {l1 l2 : List Char} {c : Char}
    (h1 : ∀ x ∈ l1, p x = true) (hc : p c = false) :
    (l1 ++ c :: l2).takeWhile p = l1 := by
  induction l1 with
  | nil => simp [List.takeWhile_cons, hc]
  | cons a t ih =>
    have ha : p a = true := h1 a (List.mem_cons_self a t)
    simp only [List.cons_append, List.takeWhile_cons, ha]
    exact congrArg (a :: ·) (ih (fun x hx => h1 x (List.mem_cons_of_mem a hx)))

theorem dropWhile_app {p : Char → Bool} {l1 l2 : List Char} {c : Char}
    (h1 : ∀ x ∈ l1, p x = true) (hc : p c = false) :
    (l1 ++ c :: l2).dropWhile p = c :: l2 := by
  induction l1 with
  | nil => simp [List.dropWhile_cons, hc]
  | cons a t ih =>
    have ha : p a = true := h1 a (List.mem_cons_self a t)
    simp only [List.cons_append, List.dropWhile_cons, ha]
    exact ih (fun x hx => h1 x (List.mem_cons_of_mem a hx))

theorem mk_ne_empty {l : List Char} (h : l ≠ []) : String.mk l ≠ "" := by
  intro he
  exact h (congrArg String.data he)

theorem isEmpty_false {α} {l : List α} (h : l ≠ []) : l.isEmpty = false := by
  cases l with
  | nil => exact absurd rfl h
  | cons a t => rfl

/-! ## Parsing invariants -/

theorem wsSplitAux_ne_empty :
    ∀ (cs acc : List Char) (pp : String), pp ∈ wsSplitAux cs acc → pp ≠ "" := by
  intro cs
  induction cs with
  | nil =>
    intro acc pp hm
    cases hacc : acc with
    | nil => simp [wsSplitAux, hacc] at hm
    | cons a t =>
      rw [hacc] at hm
      have hts : wsSplitAux [] (a :: t) = [String.mk (a :: t).reverse] := rfl
      rw [hts, List.mem_singleton] at hm
      subst hm
      exact mk_ne_empty (by simp)
  | cons c rest ih =>
    intro acc pp hm
    simp only [wsSplitAux] at hm
    by_cases hsp : isPySpace c = true
    · rw [if_pos hsp] at hm
      cases hacc : acc with
      | nil =>
        rw [hacc] at hm
        rw [if_pos (by rfl : ([] : List Char).isEmpty = true)] at hm
        exact ih [] pp hm
      | cons a t =>
        rw [hacc] at hm
        rw [if_neg (by simp : ¬((a :: t).isEmpty = true))] at hm
        rcases List.mem_cons.mp hm with h | h
        · subst h; exact mk_ne_empty (by simp)
        · exact ih [] pp h
    · rw [if_neg hsp] at hm
      exact ih (c :: acc) pp hm

theorem pySplitWs_ne_empty {s pp : String} (h : pp ∈ pySplitWs s) : pp ≠ "" :=
  wsSplitAux_ne_empty s.data [] pp h

theorem parseEntries_url_ne :
    ∀ (entries : List String) (acc cs : List Candidate),
      (∀ c ∈ acc, c.url ≠ "") → parseEntries entries acc = some cs →
      ∀ c ∈ cs, c.url ≠ "" := by
  intro entries
  induction entries with
  | nil =>
    intro acc cs hacc hp
    simp only [parseEntries] at hp
    injection hp with hp
    subst hp
    exact hacc
  | cons entry rest ih =>
    intro acc cs hacc hp
    cases hsplit : pySplitWs entry with
    | nil =>
      simp only [parseEntries, hsplit] at hp
      exact ih acc cs hacc hp
    | cons p1 t1 =>
      cases t1 with
      | nil =>
        simp only [parseEntries, hsplit] at hp
        refine ih _ cs ?_ hp
        intro c hc
        rcases List.mem_append.mp hc with h | h
        · exact hacc c h
        · rw [List.mem_singleton] at h
          subst h
          exact pySplitWs_ne_empty (hsplit ▸ List.mem_cons_self p1 [])
      | cons p2 t2 =>
        cases t2 with
        | nil =>
          simp only [parseEntries, hsplit] at hp
          by_cases hw : lastIsW p2 = true
          · rw [if_pos hw] at hp
            cases hint : pyInt? (dropLastChar p2) with
            | none =>
              simp only [hint] at hp
              exact Option.noConfusion hp
            | some n =>
              simp only [hint] at hp
              refine ih _ cs ?_ hp
              intro c hc
              rcases List.mem_append.mp hc with h | h
              · exact hacc c h
              · rw [List.mem_singleton] at h
                subst h
                exact pySplitWs_ne_empty (hsplit ▸ List.mem_cons_self p1 (p2 :: []))
          · rw [if_neg hw] at hp
            exact ih acc cs hacc hp
        | cons p3 t3 =>
          simp only [parseEntries, hsplit] at hp
          exact ih acc cs hacc hp

theorem parseSrcset_empty : parseSrcset "" = some [] := rfl

theorem parseSrcset_url_ne {s : String} {cs : List Candidate}
    (hp : parseSrcset s = some cs) : ∀ c ∈ cs, c.url ≠ "" :=
  parseEntries_url_ne (splitComma s) [] cs (by intro c hc; cases hc) hp

/-! ## The `max(..., key=width)` selection -/

theorem pyMaxBy_ge : ∀ (l : List Candidate) (best : Candidate),
    best.width ≤ (pyMaxBy best l).width := by
  intro l
  induction l with
  | nil => intro best; exact le_refl _
  | cons c rest ih =>
    intro best
    by_cases h : best.width < c.width
    · simp only [pyMaxBy, if_pos h]
      exact le_trans (le_of_lt h) (ih c)
    · simp only [pyMaxBy, if_neg h]
      exact ih best

theorem pyMaxBy_mem : ∀ (l : List Candidate) (best : Candidate),
    pyMaxBy best l ∈ best :: l := by
  intro l
  induction l with
  | nil => intro best; exact List.mem_cons_self _ _
  | cons c rest ih =>
    intro best
    by_cases h : best.width < c.width
    · simp only [pyMaxBy, if_pos h]
      rcases List.mem_cons.mp (ih c) with h2 | h2
      · rw [h2]; exact List.mem_cons_of_mem _ (List.mem_cons_self _ _)
      · exact List.mem_cons_of_mem _ (List.mem_cons_of_mem _ h2)
    · simp only [pyMaxBy, if_neg h]
      rcases List.mem_cons.mp (ih best) with h2 | h2
      · rw [h2]; exact List.mem_cons_self _ _
      · exact List.mem_cons_of_mem _ (List.mem_cons_of_mem _ h2)

theorem pyMax?_mem {cs : List Candidate} {c : Candidate} (h : pyMax? cs = some c) :
    c ∈ cs := by
  cases cs with
  | nil => cases h
  | cons c0 rest =>
    simp only [pyMax?] at h
    injection h with h
    exact h ▸ pyMaxBy_mem rest c0

theorem pyMaxBy_first_max : ∀ (l : List Candidate) (best : Candidate),
    ∃ l1 l2, best :: l = l1 ++ (pyMaxBy best l) :: l2 ∧
      (∀ d ∈ l1, d.width < (pyMaxBy best l).width) ∧
      (∀ d ∈ l2, d.width ≤ (pyMaxBy best l).width) := by
  intro l
  induction l with
  | nil =>
    intro best
    refine ⟨[], [], rfl, ?_, ?_⟩
    · intro d hd; cases hd
    · intro d hd; cases hd
  | cons c rest ih =>
    intro best
    by_cases h : best.width < c.width
    · simp only [pyMaxBy, if_pos h]
      obtain ⟨l1, l2, he, h1, h2⟩ := ih c
      refine ⟨best :: l1, l2, ?_, ?_, h2⟩
      · rw [List.cons_append]
        exact congrArg (best :: ·) he
      · intro d hd
        rcases List.mem_cons.mp hd with h3 | h3
        · rw [h3]; exact lt_of_lt_of_le h (pyMaxBy_ge rest c)
        · exact h1 d h3
    · simp only [pyMaxBy, if_neg h]
      set m := pyMaxBy best rest with hm
      obtain ⟨l1, l2, he, h1, h2⟩ := ih best
      cases l1 with
      | nil =>
        simp only [List.nil_append] at he
        injection he with he1 he2
        rw [← hm] at he1 h1 h2
        refine ⟨[], c :: rest, ?_, ?_, ?_⟩
        · rw [List.nil_append, ← he1]
        · intro d hd; cases hd
        · intro d hd
          rcases List.mem_cons.mp hd with h3 | h3
          · rw [h3, ← he1]; exact le_of_not_lt h
          · exact h2 d (he2 ▸ h3)
      | cons b l1' =>
        rw [List.cons_append] at he
        injection he with he1 he2
        rw [← hm] at he2 h1 h2
        refine ⟨best :: c :: l1', l2, ?_, ?_, h2⟩
        · rw [List.cons_append, List.cons_append, ← he2]
        · intro d hd
          have hbm : best.width < m.width := by
            rw [he1]; exact h1 b (List.mem_cons_self _ _)
          rcases List.mem_cons.mp hd with h3 | h3
          · rw [h3]; exact hbm
          · rcases List.mem_cons.mp h3 with h4 | h4
            · rw [h4]
              exact lt_of_le_of_lt (le_of_not_lt h) hbm
            · exact h1 d (List.mem_cons_of_mem _ h4)

/-! ## Soundness and completeness of the hand-compiled cleaning regex -/

theorem ne_nil_of_not_isEmpty {α} {l : List α} (h : ¬l.isEmpty = true) : l ≠ [] := by
  intro he; subst he; exact h rfl

theorem stripResizeRev_sound {r base : List Char} (h : stripResizeRev r = some base) :
    ∃ e2 e1, r = e2 ++ 'x' :: (e1 ++ '-' :: base) ∧ e2 ≠ [] ∧ e1 ≠ [] ∧
      (∀ c ∈ e2, isDigitCh c = true) ∧ (∀ c ∈ e1, isDigitCh c = true) := by
  simp only [stripResizeRev] at h
  by_cases h1 : (r.takeWhile isDigitCh).isEmpty = true
  · rw [if_pos h1] at h; exact Option.noConfusion h
  · rw [if_neg h1] at h
    cases hdrop : r.dropWhile isDigitCh with
    | nil => simp only [hdrop] at h; exact Option.noConfusion h
    | cons c r5 =>
      simp only [hdrop] at h
      by_cases hc : c = 'x'
      case neg => rw [if_neg hc] at h; exact Option.noConfusion h
      case pos =>
        rw [if_pos hc] at h
        by_cases h1' : (r5.takeWhile isDigitCh).isEmpty = true
        · rw [if_pos h1'] at h; exact Option.noConfusion h
        · rw [if_neg h1'] at h
          cases hdrop2 : r5.dropWhile isDigitCh with
          | nil => simp only [hdrop2] at h; exact Option.noConfusion h
          | cons c2 base' =>
            simp only [hdrop2] at h
            by_cases hc2 : c2 = '-'
            case neg => rw [if_neg hc2] at h; exact Option.noConfusion h
            case pos =>
              rw [if_pos hc2] at h
              injection h with hbase
              subst hbase hc hc2
              refine ⟨r.takeWhile isDigitCh, r5.takeWhile isDigitCh, ?_, ?_, ?_, ?_, ?_⟩
              · conv_lhs => rw [← List.takeWhile_append_dropWhile (p := isDigitCh) (l := r)]
                rw [hdrop]
                congr 2
                conv_lhs => rw [← List.takeWhile_append_dropWhile (p := isDigitCh) (l := r5)]
                rw [hdrop2]
              · exact ne_nil_of_not_isEmpty h1
              · exact ne_nil_of_not_isEmpty h1'
              · exact fun c hc => List.mem_takeWhile_imp hc
              · exact fun c hc => List.mem_takeWhile_imp hc

theorem stripResizeRev_complete {e2 e1 base : List Char}
    (hn2 : e2 ≠ []) (hn1 : e1 ≠ [])
    (h2 : ∀ c ∈ e2, isDigitCh c = true) (h1 : ∀ c ∈ e1, isDigitCh c = true) :
    stripResizeRev (e2 ++ 'x' :: (e1 ++ '-' :: base)) = some base := by
  have hx : isDigitCh 'x' = false := by decide
  have hd : isDigitCh '-' = false := by decide
  have ht : (e2 ++ 'x' :: (e1 ++ '-' :: base)).takeWhile isDigitCh = e2 :=
    takeWhile_app h2 hx
  have hdr : (e2 ++ 'x' :: (e1 ++ '-' :: base)).dropWhile isDigitCh =
      'x' :: (e1 ++ '-' :: base) := dropWhile_app h2 hx
  have ht1 : (e1 ++ '-' :: base).takeWhile isDigitCh = e1 := takeWhile_app h1 hd
  have hdr1 : (e1 ++ '-' :: base).dropWhile isDigitCh = '-' :: base :=
    dropWhile_app h1 hd
  simp only [stripResizeRev, ht, hdr, ht1, hdr1, isEmpty_false hn2, isEmpty_false hn1]
  simp

theorem stripDpiRev_dpi {c : Char} (hc : isDigitCh c = true) (rest : List Char) :
    stripDpiRev ('x' :: c :: '@' :: rest) = some rest := by
  simp [stripDpiRev, hc]

theorem stripDpiRev_digit_head {c : Char} (hc : isDigitCh c = true) (t : List Char) :
    stripDpiRev (c :: t) = some (c :: t) := by
  have hcx : ¬(c = 'x') := by
    intro h; subst h; exact absurd hc (by decide)
  cases t with
  | nil => rfl
  | cons b t2 =>
    cases t2 with
    | nil => rfl
    | cons d t3 =>
      simp only [stripDpiRev]
      rw [if_neg (fun hh => hcx hh.1)]

theorem stripDpiRev_sound {r2 r3 : List Char} (h : stripDpiRev r2 = some r3) :
    r2 = r3 ∨ ∃ c, isDigitCh c = true ∧ r2 = 'x' :: c :: '@' :: r3 := by
  cases r2 with
  | nil => simp only [stripDpiRev] at h; injection h with h; exact Or.inl h
  | cons a t =>
    cases t with
    | nil => simp only [stripDpiRev] at h; injection h with h; exact Or.inl h
    | cons b t2 =>
      cases t2 with
      | nil => simp only [stripDpiRev] at h; injection h with h; exact Or.inl h
      | cons c t3 =>
        simp only [stripDpiRev] at h
        by_cases hcond : a = 'x' ∧ c = '@'
        · rw [if_pos hcond] at h
          by_cases hb : isDigitCh b = true
          · rw [if_pos hb] at h
            injection h with h
            right
            exact ⟨b, hb, by rw [hcond.1, hcond.2, h]⟩
          · rw [if_neg hb] at h; exact Option.noConfusion h
        · rw [if_neg hcond] at h; injection h with h; exact Or.inl h

theorem cleanTail_eval {r2 r3 base : List Char}
    (hdpi : stripDpiRev r2 = some r3) (hsr : stripResizeRev r3 = some base) :
    cleanTail ('.' :: r2) = some base := by
  simp [cleanTail, hdpi, hsr]

/-! ## The declarative reading of the cleaning regex -/

def allDigits (s : String) : Prop := ∀ c ∈ s.data, isDigitCh c = true

def allAlpha (s : String) : Prop := ∀ c ∈ s.data, isAlphaCh c = true

/-- The optional `(@\dx)?` group, declaratively. -/
def DpiOk (dpi : String) : Prop :=
  dpi = "" ∨ ∃ c, isDigitCh c = true ∧ dpi = String.mk ['@', c, 'x']

/-- The working URL decomposes as
`base ++ "-" ++ digits ++ "x" ++ digits ++ dpi ++ "." ++ extension`
exactly as the cleaning regex `^(.*)(-\d+x\d+(@\dx)?)\.([a-zA-Z]{3,5})$`
demands. -/
def CleanDecomp (u b e : String) : Prop :=
  ∃ d1 d2 dpi : String,
    u = b ++ "-" ++ d1 ++ "x" ++ d2 ++ dpi ++ "." ++ e ∧
    d1 ≠ "" ∧ allDigits d1 ∧ d2 ≠ "" ∧ allDigits d2 ∧ DpiOk dpi ∧
    3 ≤ e.length ∧ e.length ≤ 5 ∧ allAlpha e

theorem cleanTail_sound {r1 base : List Char} (h : cleanTail r1 = some base) :
    ∃ r2 r3, r1 = '.' :: r2 ∧ stripDpiRev r2 = some r3 ∧
      stripResizeRev r3 = some base := by
  cases r1 with
  | nil => exact Option.noConfusion h
  | cons c r2 =>
    simp only [cleanTail] at h
    by_cases hc : c = '.'
    · rw [if_pos hc] at h
      cases hdpi : stripDpiRev r2 with
      | none => simp only [hdpi] at h; exact Option.noConfusion h
      | some r3 =>
        simp only [hdpi] at h
        exact ⟨r2, r3, by rw [hc], hdpi, h⟩
    · rw [if_neg hc] at h; exact Option.noConfusion h

theorem data_mk (l : List Char) : (String.mk l).data = l := rfl

theorem mk_data (s : String) : String.mk s.data = s := rfl

theorem data_ne_nil {s : String} (h : s ≠ "") : s.data ≠ [] := by
  intro hh
  exact h (String.ext hh)

/-- Soundness of the compiled cleaning regex: a successful match decomposes the
URL exactly as `^(.*)(-\d+x\d+(@\dx)?)\.([a-zA-Z]{3,5})$` requires, returning
the `(.*)` group and the extension group. -/
theorem cleanMatch_sound {u b e : String} (h : cleanMatch u = some (b, e)) :
    CleanDecomp u b e := by
  simp only [cleanMatch] at h
  by_cases hlen : 3 ≤ (u.data.reverse.takeWhile isAlphaCh).length ∧
      (u.data.reverse.takeWhile isAlphaCh).length ≤ 5
  case neg => rw [if_neg hlen] at h; exact Option.noConfusion h
  case pos =>
    rw [if_pos hlen] at h
    cases hct : cleanTail (u.data.reverse.dropWhile isAlphaCh) with
    | none => simp only [hct] at h; exact Option.noConfusion h
    | some base =>
      simp only [hct] at h
      injection h with h
      set ew := u.data.reverse.takeWhile isAlphaCh with hew
      have hb : String.mk base.reverse = b := congrArg Prod.fst h
      have he : String.mk ew.reverse = e := congrArg Prod.snd h
      obtain ⟨r2, r3, hr1, hdpi, hsr⟩ := cleanTail_sound hct
      obtain ⟨e2, e1, hr3, hn2, hn1, hd2, hd1⟩ := stripResizeRev_sound hsr
      have hrev : u.data.reverse = ew ++ ('.' :: r2) := by
        conv_lhs =>
          rw [← List.takeWhile_append_dropWhile (p := isAlphaCh) (l := u.data.reverse)]
        rw [hr1, ← hew]
      have hudata : u.data = (ew ++ ('.' :: r2)).reverse := by
        rw [← hrev, List.reverse_reverse]
      have healpha : allAlpha e := by
        intro c hc
        rw [← he, data_mk] at hc
        exact List.mem_takeWhile_imp (List.mem_reverse.mp hc)
      have helen : e.length = ew.length := by
        rw [← he]
        exact List.length_reverse ew
      rcases stripDpiRev_sound hdpi with hcase | ⟨cd, hcd, hcase⟩
      · refine ⟨String.mk e1.reverse, String.mk e2.reverse, "",
          ?_, ?_, ?_, ?_, ?_, ?_, ?_, ?_, healpha⟩
        · apply String.ext
          rw [← hb, ← he]
          rw [hudata, hcase, hr3]
          simp [String.data_append, List.reverse_append, List.append_assoc]
        · exact mk_ne_empty (by simp [hn1])
        · intro c hc
          rw [data_mk] at hc
          exact hd1 c (List.mem_reverse.mp hc)
        · exact mk_ne_empty (by simp [hn2])
        · intro c hc
          rw [data_mk] at hc
          exact hd2 c (List.mem_reverse.mp hc)
        · exact Or.inl rfl
        · rw [helen]; exact hlen.1
        · rw [helen]; exact hlen.2
      · refine ⟨String.mk e1.reverse, String.mk e2.reverse, String.mk ['@', cd, 'x'],
          ?_, ?_, ?_, ?_, ?_, ?_, ?_, ?_, healpha⟩
        · apply String.ext
          rw [← hb, ← he]
          rw [hudata, hcase, hr3]
          simp [String.data_append, List.reverse_append, List.append_assoc]
        · exact mk_ne_empty (by simp [hn1])
        · intro c hc
          rw [data_mk] at hc
          exact hd1 c (List.mem_reverse.mp hc)
        · exact mk_ne_empty (by simp [hn2])
        · intro c hc
          rw [data_mk] at hc
          exact hd2 c (List.mem_reverse.mp hc)
        · exact Or.inr ⟨cd, hcd, rfl⟩
        · rw [helen]; exact hlen.1
        · rw [helen]; exact hlen.2

/-- Completeness of the compiled cleaning regex: whenever the URL decomposes as
the pattern demands, the match succeeds and returns exactly the base name and
extension of that (unique) decomposition. -/
theorem cleanMatch_complete {u b e : String} (h : CleanDecomp u b e) :
    cleanMatch u = some (b, e) := by
  obtain ⟨d1, d2, dpi, hu, hd1n, hd1d, hd2n, hd2d, hdpi, hel, heu, hea⟩ := h
  have hrev : u.data.reverse =
      e.data.reverse ++ '.' :: (dpi.data.reverse ++
        (d2.data.reverse ++ 'x' :: (d1.data.reverse ++ '-' :: b.data.reverse))) := by
    rw [hu]
    simp [String.data_append, List.reverse_append, List.append_assoc]
  have hEa : ∀ c ∈ e.data.reverse, isAlphaCh c = true :=
    fun c hc => hea c (List.mem_reverse.mp hc)
  have hdotA : isAlphaCh '.' = false := by decide
  have htw : u.data.reverse.takeWhile isAlphaCh = e.data.reverse := by
    rw [hrev]; exact takeWhile_app hEa hdotA
  have hdw : u.data.reverse.dropWhile isAlphaCh = '.' :: (dpi.data.reverse ++
      (d2.data.reverse ++ 'x' :: (d1.data.reverse ++ '-' :: b.data.reverse))) := by
    rw [hrev]; exact dropWhile_app hEa hdotA
  have hdpieval : stripDpiRev (dpi.data.reverse ++
      (d2.data.reverse ++ 'x' :: (d1.data.reverse ++ '-' :: b.data.reverse))) =
      some (d2.data.reverse ++ 'x' :: (d1.data.reverse ++ '-' :: b.data.reverse)) := by
    rcases hdpi with h0 | ⟨cd, hcd, h0⟩
    · rw [h0]
      rw [show (("" : String).data.reverse : List Char) = [] from rfl, List.nil_append]
      cases hrev2 : d2.data.reverse with
      | nil =>
        exact absurd (by simpa using congrArg List.reverse hrev2) (data_ne_nil hd2n)
      | cons c0 t0 =>
        have hc0 : isDigitCh c0 = true :=
          hd2d c0 (List.mem_reverse.mp (hrev2 ▸ List.mem_cons_self c0 t0))
        rw [List.cons_append]
        exact stripDpiRev_digit_head hc0 _
    · rw [h0]
      rw [show ((String.mk ['@', cd, 'x']).data.reverse : List Char) = ['x', cd, '@'] from rfl]
      rw [show ((['x', cd, '@'] : List Char) ++ (d2.data.reverse ++ 'x' :: (d1.data.reverse ++ '-' :: b.data.reverse))) = 'x' :: cd :: '@' :: (d2.data.reverse ++ 'x' :: (d1.data.reverse ++ '-' :: b.data.reverse)) from rfl]
      exact stripDpiRev_dpi hcd _
  have hsreval : stripResizeRev (d2.data.reverse ++ 'x' ::
      (d1.data.reverse ++ '-' :: b.data.reverse)) = some b.data.reverse :=
    stripResizeRev_complete (by simp [data_ne_nil hd2n]) (by simp [data_ne_nil hd1n])
      (fun c hc => hd2d c (List.mem_reverse.mp hc))
      (fun c hc => hd1d c (List.mem_reverse.mp hc))
  have hcteval : cleanTail (u.data.reverse.dropWhile isAlphaCh) = some b.data.reverse := by
    rw [hdw]; exact cleanTail_eval hdpieval hsreval
  have hLen : (e.data.reverse).length = e.length := by
    rw [List.length_reverse]; rfl
  simp only [cleanMatch, htw, hcteval]
  rw [if_pos ⟨by rw [hLen]; exact hel, by rw [hLen]; exact heu⟩]
  rw [List.reverse_reverse, List.reverse_reverse, mk_data, mk_data]

theorem cleanSuffix_of_none {url : String} (h : cleanMatch url = none) :
    cleanSuffix url = url := by
  simp [cleanSuffix, h]

theorem cleanSuffix_of_some {url b e : String} (h : cleanMatch url = some (b, e)) :
    cleanSuffix url = b ++ "." ++ e := by
  simp [cleanSuffix, h]

theorem cleanSuffix_ne_empty {u : String} (hu : u ≠ "") : cleanSuffix u ≠ "" := by
  cases hcm : cleanMatch u with
  | none => rw [cleanSuffix_of_none hcm]; exact hu
  | some p =>
    obtain ⟨b, e⟩ := p
    rw [cleanSuffix_of_some hcm]
    intro hh
    have h2 := congrArg String.data hh
    rw [String.data_append, String.data_append] at h2
    rw [show (("." : String).data : List Char) = ['.'] from rfl] at h2
    simp at h2

/-! ## Behaviour of `get_original_image_url` at the top level -/

theorem truthy_some {u : String} (h : u ≠ "") : truthy (some u) = true := by
  simp [truthy, h]

theorem truthy_none : truthy none = false := rfl

theorem srcsetWorking_none : srcsetWorking none = none := rfl

theorem finishUrl_falsy {iu : Option String} (h : truthy iu = false) :
    finishUrl iu = none := by
  cases iu with
  | none => rfl
  | some u =>
    by_cases hu : u = ""
    · subst hu; rfl
    · rw [truthy_some hu] at h; exact Bool.noConfusion h

theorem finishUrl_truthy {u : String} (h : u ≠ "") :
    finishUrl (some u) = some (cleanSuffix u) := by
  simp [finishUrl, h]

/-- With no srcset, the working URL is `image_url` and it is suffix-cleaned. -/
theorem resolve_src_eq {u : String} (hu : u ≠ "") :
    get_original_image_url (some u) none = some (cleanSuffix u) := by
  simp [get_original_image_url, srcsetWorking, truthy_some hu, truthy_none,
    finishUrl_truthy hu]

/-- When the srcset branch produced a truthy URL, `image_url` is ignored and
the result is the cleaned srcset winner. -/
theorem resolve_with_srcset {s u : String} (hs : s ≠ "") (hb : srcsetBest s = some u)
    (hu : u ≠ "") (iu : Option String) :
    get_original_image_url iu (some s) = some (cleanSuffix u) := by
  have hw : srcsetWorking (some s) = some u := by
    simp [srcsetWorking, hs, hb]
  simp [get_original_image_url, hw, truthy_some hs, truthy_some hu,
    finishUrl_truthy hu]

/-- When the srcset branch contributes nothing truthy, the call behaves exactly
like a call without srcset: the `except` swallows the failure and falls back
to `src`. -/
theorem resolve_degrade {ss : Option String} (h : truthy (srcsetWorking ss) = false)
    (iu : Option String) :
    get_original_image_url iu ss = get_original_image_url iu none := by
  cases ss with
  | none => rfl
  | some s =>
    cases hiu : truthy iu with
    | true =>
      simp [get_original_image_url, srcsetWorking_none, truthy_none, h, hiu]
    | false =>
      by_cases hse : s = ""
      · subst hse
        simp [get_original_image_url, srcsetWorking_none, truthy_none, hiu,
          show truthy (some "") = false from rfl]
      · simp [get_original_image_url, srcsetWorking_none, truthy_none, h, hiu,
          truthy_some hse, finishUrl_falsy hiu]

theorem parseSrcset_ne_of_nonempty {s : String} {cs : List Candidate}
    (hp : parseSrcset s = some cs) (h : cs ≠ []) : s ≠ "" := by
  intro hh
  subst hh
  rw [parseSrcset_empty] at hp
  injection hp with hp
  exact h hp.symm

/-- When the non-resized-looking subset is non-empty its first maximum is the
srcset winner. -/
theorem srcsetBest_nonresized {s : String} {cs : List Candidate} {c : Candidate}
    (hp : parseSrcset s = some cs)
    (hm : pyMax? (cs.filter (fun d => !matchResizeEnd d.url)) = some c) :
    srcsetBest s = some c.url := by
  have hfil : cs.filter (fun d => !matchResizeEnd d.url) ≠ [] := by
    intro hh
    rw [hh] at hm
    exact Option.noConfusion hm
  have hcs : cs ≠ [] := by
    intro hh
    subst hh
    simp at hfil
  simp only [srcsetBest, hp]
  rw [if_neg (by simp [isEmpty_false hcs])]
  rw [if_pos (by simp [isEmpty_false hfil])]
  rw [hm]
  rfl

/-- When every candidate looks resized the first maximum of the full list is
the srcset winner. -/
theorem srcsetBest_all_resized {s : String} {cs : List Candidate} {c : Candidate}
    (hp : parseSrcset s = some cs)
    (hfil : cs.filter (fun d => !matchResizeEnd d.url) = [])
    (hm : pyMax? cs = some c) :
    srcsetBest s = some c.url := by
  have hcs : cs ≠ [] := by
    intro hh
    subst hh
    exact Option.noConfusion hm
  simp only [srcsetBest, hp]
  rw [if_neg (by simp [isEmpty_false hcs])]
  rw [hfil]
  rw [if_neg (by simp)]
  rw [hm]
  rfl

theorem truthy_true {o : Option String} (h : truthy o = true) :
    ∃ u, o = some u ∧ u ≠ "" := by
  cases o with
  | none => exact Bool.noConfusion h
  | some u =>
    by_cases hu : u = ""
    · subst hu
      rw [show truthy (some "") = false from rfl] at h
      exact Bool.noConfusion h
    · exact ⟨u, rfl, hu⟩

theorem truthy_srcsetWorking_imp {ss : Option String}
    (h : truthy (srcsetWorking ss) = true) : truthy ss = true := by
  obtain ⟨v, hsweq, hv⟩ := truthy_true h
  cases ss with
  | none => rw [srcsetWorking_none] at hsweq; exact Option.noConfusion hsweq
  | some s =>
    by_cases hs : s = ""
    · subst hs
      simp [srcsetWorking] at hsweq
    · exact truthy_some hs

/-- Exact characterisation of the absent result: `None` comes back iff `src`
is falsy and the srcset branch contributed nothing truthy. -/
theorem resolve_none_iff (iu ss : Option String) :
    get_original_image_url iu ss = none ↔
      (truthy iu = false ∧ truthy (srcsetWorking ss) = false) := by
  cases hiu : truthy iu with
  | true =>
    obtain ⟨u, hiueq, hu⟩ := truthy_true hiu
    subst hiueq
    cases hsw : truthy (srcsetWorking ss) with
    | true =>
      obtain ⟨v, hsweq, hv⟩ := truthy_true hsw
      simp [get_original_image_url, hiu, hsw, hsweq, truthy_some hv,
        finishUrl_truthy hv]
    | false =>
      simp [get_original_image_url, hiu, hsw, finishUrl_truthy hu]
  | false =>
    cases hsw : truthy (srcsetWorking ss) with
    | true =>
      obtain ⟨v, hsweq, hv⟩ := truthy_true hsw
      have hss : truthy ss = true := truthy_srcsetWorking_imp hsw
      simp [get_original_image_url, hiu, hsw, hss, hsweq, truthy_some hv,
        finishUrl_truthy hv]
    | false =>
      cases hss : truthy ss with
      | true =>
        simp [get_original_image_url, hiu, hsw, hss, finishUrl_falsy hiu]
      | false =>
        simp [get_original_image_url, hiu, hss]

/-! ## The claims -/

/-- C1: for every working URL, if it matches
`^(.*)(-\d+x\d+(@\dx)?)\.([a-zA-Z]{3,5})$` the resolver returns
`base_name ++ "." ++ extension` (resize/DPI suffix stripped), and otherwise
returns the working URL unchanged; in particular
`resolve("https://x/img-300x300.jpg", None) = "https://x/img.jpg"` and
`resolve("https://x/img.jpg", None) = "https://x/img.jpg"`. -/
theorem spec_c1_suffix_cleaning :
    (∀ u b e : String, cleanMatch u = some (b, e) → CleanDecomp u b e) ∧
    (∀ u b e : String, CleanDecomp u b e → cleanMatch u = some (b, e)) ∧
    (∀ u b e : String, cleanMatch u = some (b, e) → cleanSuffix u = b ++ "." ++ e) ∧
    (∀ u : String, cleanMatch u = none → cleanSuffix u = u) ∧
    (∀ u : String, u ≠ "" →
      get_original_image_url (some u) none = some (cleanSuffix u)) ∧
    get_original_image_url (some "https://x/img-300x300.jpg") none =
      some "https://x/img.jpg" ∧
    get_original_image_url (some "https://x/img.jpg") none =
      some "https://x/img.jpg" := by
  refine ⟨fun u b e h => cleanMatch_sound h, fun u b e h => cleanMatch_complete h,
    fun u b e h => cleanSuffix_of_some h, fun u h => cleanSuffix_of_none h,
    fun u h => resolve_src_eq h, ?_, ?_⟩
  · decide
  · decide

theorem spec_c1_suffix_cleaning_witness :
    CleanDecomp "https://x/img-300x300.jpg" "https://x/img" "jpg" ∧
    cleanMatch "https://x/img-300x300.jpg" = some ("https://x/img", "jpg") ∧
    cleanSuffix "https://x/img-300x300.jpg" = "https://x/img" ++ "." ++ "jpg" ∧
    cleanSuffix "https://x/img.jpg" = "https://x/img.jpg" ∧
    get_original_image_url (some "https://x/img-300x300.jpg") none =
      some (cleanSuffix "https://x/img-300x300.jpg") :=
  ⟨spec_c1_suffix_cleaning.1 _ _ _ (by decide),
   spec_c1_suffix_cleaning.2.1 _ _ _
     (spec_c1_suffix_cleaning.1 _ _ _ (by decide)),
   spec_c1_suffix_cleaning.2.2.1 _ _ _ (by decide),
   spec_c1_suffix_cleaning.2.2.2.1 _ (by decide),
   spec_c1_suffix_cleaning.2.2.2.2.1 _ (by decide)⟩

/-- C2: whenever the srcset parses and the subset of candidates whose URL does
not end in the resize pattern is non-empty, the result is the suffix-cleaned
URL of that subset's (first) maximum-width candidate, for every `src`; in
particular `"https://x/a-300x300.jpg 300w, https://x/a.jpg 1000w"` resolves to
`"https://x/a.jpg"` for every `src`. -/
theorem spec_c2_nonresized_preferred :
    (∀ (src : Option String) (s : String) (cs : List Candidate) (c : Candidate),
      parseSrcset s = some cs →
      pyMax? (cs.filter (fun d => !matchResizeEnd d.url)) = some c →
      get_original_image_url src (some s) = some (cleanSuffix c.url)) ∧
    (∀ src : Option String,
      get_original_image_url src
          (some "https://x/a-300x300.jpg 300w, https://x/a.jpg 1000w") =
        some "https://x/a.jpg") := by
  have main : ∀ (src : Option String) (s : String) (cs : List Candidate)
      (c : Candidate), parseSrcset s = some cs →
      pyMax? (cs.filter (fun d => !matchResizeEnd d.url)) = some c →
      get_original_image_url src (some s) = some (cleanSuffix c.url) := by
    intro src s cs c hp hm
    have hmem : c ∈ cs := (List.mem_filter.mp (pyMax?_mem hm)).1
    have hurl : c.url ≠ "" := parseSrcset_url_ne hp c hmem
    have hcs : cs ≠ [] := by
      intro hh
      subst hh
      exact absurd hmem (List.not_mem_nil c)
    exact resolve_with_srcset (parseSrcset_ne_of_nonempty hp hcs)
      (srcsetBest_nonresized hp hm) hurl src
  refine ⟨main, fun src => ?_⟩
  have h := main src "https://x/a-300x300.jpg 300w, https://x/a.jpg 1000w"
    [⟨"https://x/a-300x300.jpg", 300⟩, ⟨"https://x/a.jpg", 1000⟩]
    ⟨"https://x/a.jpg", 1000⟩ (by decide) (by decide)
  rw [h]
  decide

theorem spec_c2_nonresized_preferred_witness :
    get_original_image_url (some "https://x/src.jpg")
        (some "https://x/a-300x300.jpg 300w, https://x/a.jpg 1000w") =
      some (cleanSuffix "https://x/a.jpg") :=
  spec_c2_nonresized_preferred.1 (some "https://x/src.jpg") _
    [⟨"https://x/a-300x300.jpg", 300⟩, ⟨"https://x/a.jpg", 1000⟩]
    ⟨"https://x/a.jpg", 1000⟩ (by decide) (by decide)

/-- C3: when every parsed candidate's URL matches the trailing resize pattern,
the maximum-width candidate of the full list is selected and suffix-cleaned;
in particular `"https://x/a-300x300.jpg 300w, https://x/a-800x800.jpg 800w"`
resolves to `"https://x/a.jpg"` for every `src`. -/
theorem spec_c3_all_resized_max :
    (∀ (src : Option String) (s : String) (cs : List Candidate) (c : Candidate),
      parseSrcset s = some cs →
      cs.filter (fun d => !matchResizeEnd d.url) = [] →
      pyMax? cs = some c →
      get_original_image_url src (some s) = some (cleanSuffix c.url)) ∧
    (∀ src : Option String,
      get_original_image_url src
          (some "https://x/a-300x300.jpg 300w, https://x/a-800x800.jpg 800w") =
        some "https://x/a.jpg") := by
  have main : ∀ (src : Option String) (s : String) (cs : List Candidate)
      (c : Candidate), parseSrcset s = some cs →
      cs.filter (fun d => !matchResizeEnd d.url) = [] →
      pyMax? cs = some c →
      get_original_image_url src (some s) = some (cleanSuffix c.url) := by
    intro src s cs c hp hfil hm
    have hmem : c ∈ cs := pyMax?_mem hm
    have hurl : c.url ≠ "" := parseSrcset_url_ne hp c hmem
    have hcs : cs ≠ [] := by
      intro hh
      subst hh
      exact absurd hmem (List.not_mem_nil c)
    exact resolve_with_srcset (parseSrcset_ne_of_nonempty hp hcs)
      (srcsetBest_all_resized hp hfil hm) hurl src
  refine ⟨main, fun src => ?_⟩
  have h := main src "https://x/a-300x300.jpg 300w, https://x/a-800x800.jpg 800w"
    [⟨"https://x/a-300x300.jpg", 300⟩, ⟨"https://x/a-800x800.jpg", 800⟩]
    ⟨"https://x/a-800x800.jpg", 800⟩ (by decide) (by decide) (by decide)
  rw [h]
  decide

theorem spec_c3_all_resized_max_witness :
    get_original_image_url none
        (some "https://x/a-300x300.jpg 300w, https://x/a-800x800.jpg 800w") =
      some (cleanSuffix "https://x/a-800x800.jpg") :=
  spec_c3_all_resized_max.1 none _
    [⟨"https://x/a-300x300.jpg", 300⟩, ⟨"https://x/a-800x800.jpg", 800⟩]
    ⟨"https://x/a-800x800.jpg", 800⟩ (by decide) (by decide) (by decide)

/-- C4: if parsing the srcset raises (e.g. a `w`-descriptor whose numeric part
is not an integer), the whole srcset is discarded — entries already parsed
included — and the call behaves exactly like `resolve(src, None)`. -/
theorem spec_c4_exception_discards_srcset :
    ∀ (s : String) (src : Option String), parseSrcset s = none →
      get_original_image_url src (some s) = get_original_image_url src none := by
  intro s src hp
  have hb : srcsetBest s = none := by
    simp [srcsetBest, hp]
  have hw : truthy (srcsetWorking (some s)) = false := by
    by_cases hse : s = ""
    · subst hse; rfl
    · simp [srcsetWorking, hse, hb, truthy_none]
  exact resolve_degrade hw src

theorem spec_c4_exception_discards_srcset_witness :
    parseSrcset "https://x/bad.jpg aXw, https://x/good.jpg 800w" = none ∧
    get_original_image_url (some "https://x/img-300x300.jpg")
        (some "https://x/bad.jpg aXw, https://x/good.jpg 800w") =
      get_original_image_url (some "https://x/img-300x300.jpg") none :=
  ⟨by decide,
   spec_c4_exception_discards_srcset _ (some "https://x/img-300x300.jpg") (by decide)⟩

/-- C5 (counterexample): the claim predicts that a srcset with one malformed
`w`-entry still yields the best of the remaining entries
(`"https://x/good.jpg"`); the code instead falls back to `src`. -/
theorem spec_c5_skip_entry_counterexample :
    get_original_image_url (some "https://x/fallback.jpg")
        (some "https://x/bad.jpg aXw, https://x/good.jpg 800w") =
      some "https://x/fallback.jpg" ∧
    (some "https://x/fallback.jpg" : Option String) ≠ some "https://x/good.jpg" := by
  exact ⟨by decide, by decide⟩

/-- C5 (amended): an entry whose width descriptor ends in `w` but whose numeric
part does not parse as an integer raises, which abandons the whole srcset and
falls back to `src`; only entries whose descriptor does not end in `w` (or
with ≠ 1,2 whitespace-parts) are skipped individually without aborting. -/
theorem spec_c5_bad_w_entry_aborts :
    parseSrcset "https://x/bad.jpg aXw, https://x/good.jpg 800w" = none ∧
    (∀ src : Option String,
      get_original_image_url src
          (some "https://x/bad.jpg aXw, https://x/good.jpg 800w") =
        get_original_image_url src none) ∧
    get_original_image_url none
        (some "https://x/bad.jpg 2x, https://x/good.jpg 800w") =
      some "https://x/good.jpg" := by
  refine ⟨by decide, fun src => ?_, by decide⟩
  exact resolve_degrade (by decide) src

/-- C6: the resolver is a total function of its two optional arguments: the
result is absent exactly when `src` is falsy and the srcset branch produced
nothing truthy (every parse failure is caught), and whenever the srcset branch
produces nothing truthy the call degrades to `resolve(src, None)`. -/
theorem spec_c6_never_raises :
    ∀ (image_url srcset_str : Option String),
      (get_original_image_url image_url srcset_str = none ↔
        (truthy image_url = false ∧ truthy (srcsetWorking srcset_str) = false)) ∧
      (truthy (srcsetWorking srcset_str) = false →
        get_original_image_url image_url srcset_str =
          get_original_image_url image_url none) :=
  fun iu ss => ⟨resolve_none_iff iu ss, fun h => resolve_degrade h iu⟩

theorem spec_c6_never_raises_witness :
    get_original_image_url none (some "https://x/a.jpg aXw") =
      get_original_image_url none none :=
  (spec_c6_never_raises none (some "https://x/a.jpg aXw")).2 (by decide)

/-- C7: the empty string and `None` are interchangeable in both argument
positions, and both-absent inputs give an absent result. -/
theorem spec_c7_empty_equals_none :
    (∀ ss : Option String,
      get_original_image_url none ss = get_original_image_url (some "") ss) ∧
    (∀ iu : Option String,
      get_original_image_url iu none = get_original_image_url iu (some "")) ∧
    get_original_image_url none none = none ∧
    get_original_image_url (some "") (some "") = none ∧
    get_original_image_url none (some "") = none := by
  refine ⟨fun ss => ?_, fun iu => ?_, rfl, rfl, rfl⟩
  · cases hsw : truthy (srcsetWorking ss) with
    | true =>
      obtain ⟨v, hsweq, hv⟩ := truthy_true hsw
      have hss : truthy ss = true := truthy_srcsetWorking_imp hsw
      simp [get_original_image_url, hsw, hsweq, hss, truthy_none,
        truthy_some hv, show truthy (some "") = false from rfl]
    | false =>
      cases hss : truthy ss with
      | true =>
        simp [get_original_image_url, hsw, hss, truthy_none,
          show truthy (some "") = false from rfl, finishUrl]
      | false =>
        simp [get_original_image_url, hss, truthy_none,
          show truthy (some "") = false from rfl]
  · have h1 : srcsetWorking (some "") = none := rfl
    cases hiu : truthy iu with
    | true =>
      simp [get_original_image_url, srcsetWorking_none, h1, truthy_none, hiu,
        show truthy (some "") = false from rfl]
    | false =>
      simp [get_original_image_url, srcsetWorking_none, h1, truthy_none, hiu,
        show truthy (some "") = false from rfl]

/-- C8: `max(..., key=width)` is a stable maximum: the selected candidate
splits the list into strictly-smaller predecessors and no-larger successors,
so on ties the first-encountered maximum wins; end to end, a width tie is
resolved in favour of the earlier srcset entry. -/
theorem spec_c8_first_max_on_ties :
    (∀ (cs : List Candidate) (c : Candidate), pyMax? cs = some c →
      ∃ l1 l2, cs = l1 ++ c :: l2 ∧ (∀ d ∈ l1, d.width < c.width) ∧
        (∀ d ∈ l2, d.width ≤ c.width)) ∧
    get_original_image_url none
        (some "https://x/first.jpg 500w, https://x/second.jpg 500w") =
      some "https://x/first.jpg" := by
  constructor
  · intro cs c hm
    cases cs with
    | nil => exact Option.noConfusion hm
    | cons c0 rest =>
      simp only [pyMax?] at hm
      injection hm with hm
      obtain ⟨l1, l2, he, h1, h2⟩ := pyMaxBy_first_max rest c0
      rw [hm] at he h1 h2
      exact ⟨l1, l2, he, h1, h2⟩
  · decide

theorem spec_c8_first_max_on_ties_witness :
    ∃ l1 l2,
      [Candidate.mk "https://x/first.jpg" 500,
       Candidate.mk "https://x/second.jpg" 500] =
        l1 ++ (Candidate.mk "https://x/first.jpg" 500) :: l2 ∧
      (∀ d ∈ l1, d.width < 500) ∧ (∀ d ∈ l2, d.width ≤ 500) :=
  spec_c8_first_max_on_ties.1
    [⟨"https://x/first.jpg", 500⟩, ⟨"https://x/second.jpg", 500⟩]
    ⟨"https://x/first.jpg", 500⟩ (by decide)

/-- C9: suffix-cleaning strips at most one trailing resize suffix per call
(the rightmost one) and is idempotent once no suffix matches: a doubly
suffixed URL loses only its last suffix, an unmatched URL is returned
unchanged, and re-resolving an already-clean result is a fixed point. -/
theorem spec_c9_single_strip_idempotent :
    get_original_image_url (some "https://x/a-100x100-200x200.jpg") none =
      some "https://x/a-100x100.jpg" ∧
    (∀ u : String, cleanMatch u = none → cleanSuffix u = u) ∧
    (∀ u v : String, get_original_image_url (some u) none = some v →
      cleanMatch v = none →
      get_original_image_url (some v) none = some v) := by
  refine ⟨by decide, fun u h => cleanSuffix_of_none h, fun u v h1 h2 => ?_⟩
  by_cases hu : u = ""
  · subst hu
    rw [show get_original_image_url (some "") none = none from rfl] at h1
    exact Option.noConfusion h1
  · rw [resolve_src_eq hu] at h1
    injection h1 with h1
    have hv : v ≠ "" := h1 ▸ cleanSuffix_ne_empty hu
    rw [resolve_src_eq hv, cleanSuffix_of_none h2]

theorem spec_c9_single_strip_idempotent_witness :
    cleanSuffix "https://x/plain.jpg" = "https://x/plain.jpg" ∧
    get_original_image_url (some "https://x/b.jpg") none =
      some "https://x/b.jpg" :=
  ⟨spec_c9_single_strip_idempotent.2.1 _ (by decide),
   spec_c9_single_strip_idempotent.2.2 "https://x/b-300x300.jpg"
     "https://x/b.jpg" (by decide) (by decide)⟩

/-- C10: a URL ending in a resize suffix plus density marker (`-100x100@2x`)
is not matched by the partition regex (which has no `@Nx` part), so the
candidate counts as non-resized-looking and beats wider plainly-resized
candidates, after which the cleaning regex strips the whole suffix. -/
theorem spec_c10_dpi_suffix_nonresized :
    matchResizeEnd "https://x/a-100x100@2x.jpg" = false ∧
    cleanSuffix "https://x/a-100x100@2x.jpg" = "https://x/a.jpg" ∧
    get_original_image_url none
        (some "https://x/a-100x100@2x.jpg 100w, https://x/b-500x500.jpg 500w") =
      some "https://x/a.jpg" := by
  exact ⟨by decide, by decide, by decide⟩
